import Mathlib

/-!
Verification of the comment-stripping core (`stripJsonComments`) of the
typescript-setup-cli repository, shallowly embedded from `src/index.js`.

The input text is modelled as a `List Char`; the scanner is a single
left-to-right pass realised as a step function `stripStep` over an explicit
`ScanState`, iterated by `stripLoop` with fuel `s.length` (each step advances
the index by at least one, so this fuel is always sufficient; see
`stripLoop_congr_fuel`).
-/

set_option maxRecDepth 8192
set_option maxHeartbeats 1600000

/-- The two comment flavours (`singleComment` / `multiComment` symbols in the
source); `isInsideComment` is modelled as `Option CommentKind` where `none`
is the source's `false`. -/
inductive CommentKind where
  | single
  | multi
deriving DecidableEq, Repr

/-- The options bag `{ whitespace = true, trailingCommas = false }` of
`stripJsonComments`. -/
structure Options where
  whitespace : Bool := true
  trailingCommas : Bool := false
deriving DecidableEq, Repr

/-- ECMAScript regex whitespace class `\s` (complement of `\S`), used by
`stripWithWhitespace`'s `replace(/\S/g, ' ')`. -/
def isJsWhitespace (c : Char) : Bool :=
  c == ' ' || c == '\t' || c == '\n' || c == '\x0b' || c == '\x0c' || c == '\r' ||
  c == '\u00A0' || c == '\u1680' || (0x2000 ≤ c.toNat && c.toNat ≤ 0x200A) ||
  c == '\u2028' || c == '\u2029' || c == '\u202F' || c == '\u205F' ||
  c == '\u3000' || c == '\uFEFF'

/-- JavaScript `string.slice(start, stop)` for the in-range uses made by the
scanner (`stop ≥ start` clamps to the empty slice via `Nat` subtraction,
matching `slice`). -/
def jsSlice (s : List Char) (start stop : Nat) : List Char :=
  (s.drop start).take (stop - start)

/-- `const stripWithoutWhitespace = () => ''` -/
def stripWithoutWhitespace : List Char := []

/-- `const stripWithWhitespace = (string, start, end) =>
string.slice(start, end).replace(/\S/g, ' ')` -/
def stripWithWhitespace (s : List Char) (start stop : Nat) : List Char :=
  (jsSlice s start stop).map (fun c => if isJsWhitespace c then c else ' ')

/-- `const strip = whitespace ? stripWithWhitespace : stripWithoutWhitespace` -/
def stripFn (o : Options) (s : List Char) (start stop : Nat) : List Char :=
  if o.whitespace then stripWithWhitespace s start stop else stripWithoutWhitespace

/-- The backward walk of `isEscaped`: number of consecutive `\` characters
immediately before position `q` (the walk stops at the start of the string,
where `jsonString[-1]` is `undefined` in the source). -/
def consecutiveBackslashes (s : List Char) : Nat → Nat
  | 0 => 0
  | i + 1 => if s.getD i ' ' = '\\' then consecutiveBackslashes s i + 1 else 0

/-- `isEscaped(jsonString, quotePosition)`: `Boolean(backslashCount % 2)`. -/
def isEscaped (s : List Char) (quotePosition : Nat) : Bool :=
  consecutiveBackslashes s quotePosition % 2 == 1

/-- The mutable loop state of `stripJsonComments`: `isInsideString`,
`isInsideComment`, `offset`, `buffer`, `result`, `commaIndex` (where the
source's `-1` sentinel is `none`). -/
structure ScanState where
  isInsideString : Bool
  isInsideComment : Option CommentKind
  offset : Nat
  buffer : List Char
  result : List Char
  commaIndex : Option Nat
deriving DecidableEq, Repr

/-- The state at the top of the `for` loop. -/
def initialScanState : ScanState :=
  { isInsideString := false, isInsideComment := none, offset := 0,
    buffer := [], result := [], commaIndex := none }

/-- The quote-handling prelude of the loop body: a `"` outside any comment
toggles `isInsideString` unless escaped. -/
def quoteStep (s : List Char) (index : Nat) (st : ScanState) : ScanState :=
  if st.isInsideComment = none ∧ s.getD index ' ' = '"' then
    if isEscaped s index then st
    else { st with isInsideString := !st.isInsideString }
  else st

/-- The remainder of the loop body after quote handling (`st1` is the state
produced by `quoteStep`), returning the index at which the next iteration
resumes (the body advances `index` by one extra position in the branches that
consume a two-character token) together with the updated state. -/
def stripStepRest (o : Options) (s : List Char) (index : Nat) (st1 : ScanState) :
    Nat × ScanState :=
  let currentCharacter := s.getD index ' '
  let nextCharacter := s[index + 1]?
  if st1.isInsideString = true then
    (index + 1, st1)
  else if st1.isInsideComment = none ∧ currentCharacter = '/' ∧
      nextCharacter = some '/' then
    (index + 2, { st1 with buffer := st1.buffer ++ jsSlice s st1.offset index,
                           offset := index, isInsideComment := some .single })
  else if st1.isInsideComment = some .single ∧ currentCharacter = '\r' ∧
      nextCharacter = some '\n' then
    (index + 2, { st1 with isInsideComment := none,
                           buffer := st1.buffer ++ stripFn o s st1.offset (index + 1),
                           offset := index + 1 })
  else if st1.isInsideComment = some .single ∧ currentCharacter = '\n' then
    (index + 1, { st1 with isInsideComment := none,
                           buffer := st1.buffer ++ stripFn o s st1.offset index,
                           offset := index })
  else if st1.isInsideComment = none ∧ currentCharacter = '/' ∧
      nextCharacter = some '*' then
    (index + 2, { st1 with buffer := st1.buffer ++ jsSlice s st1.offset index,
                           offset := index, isInsideComment := some .multi })
  else if st1.isInsideComment = some .multi ∧ currentCharacter = '*' ∧
      nextCharacter = some '/' then
    (index + 2, { st1 with isInsideComment := none,
                           buffer := st1.buffer ++ stripFn o s st1.offset (index + 2),
                           offset := index + 2 })
  else if o.trailingCommas = true ∧ st1.isInsideComment = none then
    match st1.commaIndex with
    | some _ =>
      if currentCharacter = '\x7d' ∨ currentCharacter = ']' then
        (index + 1,
          { st1 with
            result := st1.result ++
              stripFn o (st1.buffer ++ jsSlice s st1.offset index) 0 1 ++
              (st1.buffer ++ jsSlice s st1.offset index).drop 1,
            buffer := [], offset := index, commaIndex := none })
      else if currentCharacter ≠ ' ' ∧ currentCharacter ≠ '\t' ∧
          currentCharacter ≠ '\r' ∧ currentCharacter ≠ '\n' then
        (index + 1, { st1 with buffer := st1.buffer ++ jsSlice s st1.offset index,
                               offset := index, commaIndex := none })
      else
        (index + 1, st1)
    | none =>
      if currentCharacter = ',' then
        (index + 1,
          { st1 with
            result := st1.result ++ st1.buffer ++ jsSlice s st1.offset index,
            buffer := [], offset := index, commaIndex := some index })
      else
        (index + 1, st1)
  else
    (index + 1, st1)

/-- One iteration of the `for` loop body of `stripJsonComments`: quote
handling followed by the comment / trailing-comma machinery. -/
def stripStep (o : Options) (s : List Char) (index : Nat) (st : ScanState) :
    Nat × ScanState :=
  stripStepRest o s index (quoteStep s index st)

/-- The `for (let index = 0; index < jsonString.length; index++)` loop,
with explicit fuel (each call of `stripStep` strictly increases the index, so
`s.length` units of fuel always reach `index ≥ s.length`). -/
def stripLoop (o : Options) (s : List Char) : Nat → Nat → ScanState → ScanState
  | 0, _, st => st
  | fuel + 1, index, st =>
    if index < s.length then
      stripLoop o s fuel (stripStep o s index st).1 (stripStep o s index st).2
    else st

/-- `stripJsonComments(jsonString, { whitespace, trailingCommas })` for a
string argument: run the scanner, then
`result + buffer + (isInsideComment ? strip(jsonString.slice(offset)) :
jsonString.slice(offset))` (where the one-argument `slice` call makes
`stripWithWhitespace` act on the whole tail). -/
def stripJsonComments (s : List Char) (o : Options) : List Char :=
  let st := stripLoop o s s.length 0 initialScanState
  st.result ++ st.buffer ++
    (if st.isInsideComment = none then s.drop st.offset
     else stripFn o (s.drop st.offset) 0 (s.drop st.offset).length)

/-- A JavaScript argument as seen by the `typeof` guard: either a string or a
value of some other type (recorded by its `typeof` name). -/
inductive JsValue where
  | str (s : List Char)
  | other (typeName : List Char)
deriving DecidableEq

/-- `stripJsonComments` including its argument check: a non-string argument
raises `TypeError` immediately (modelled as `Except.error` carrying the
message) before any scanning occurs; a string argument never raises. -/
def stripJsonCommentsChecked (v : JsValue) (o : Options) :
    Except (List Char) (List Char) :=
  match v with
  | .str s => .ok (stripJsonComments s o)
  | .other typeName =>
      .error (("Expected argument `jsonString` to be a `string`, got `".toList)
        ++ typeName ++ ("`".toList))

/-! ### Generic helper lemmas about slices and whitespace-preserving erasure -/

/-- Relation between an input character and the character the whitespace-policy
may leave in its place: either unchanged, or a space standing for an erased
non-whitespace character. -/
abbrev PointRel (ic oc : Char) : Prop :=
  oc = ic ∨ (oc = ' ' ∧ isJsWhitespace ic = false)

/-- `out` is obtained from `inp` by replacing some non-whitespace characters
with single spaces (position by position). -/
abbrev Pointwise (inp out : List Char) : Prop :=
  List.Forall₂ PointRel inp out

theorem pointwise_refl (l : List Char) : Pointwise l l :=
  List.forall₂_same.2 (fun _ _ => Or.inl rfl)

theorem pointwise_append {a b c d : List Char}
    (h1 : Pointwise a b) (h2 : Pointwise c d) : Pointwise (a ++ c) (b ++ d) :=
  List.rel_append h1 h2

theorem pointwise_length {a b : List Char} (h : Pointwise a b) :
    b.length = a.length :=
  (List.Forall₂.length_eq h).symm

theorem pointwise_map (l : List Char) :
    Pointwise l (l.map (fun c => if isJsWhitespace c then c else ' ')) := by
  induction l with
  | nil => exact List.Forall₂.nil
  | cons c t ih =>
      refine List.Forall₂.cons ?_ ih
      by_cases h : isJsWhitespace c
      · exact Or.inl (by simp [h])
      · exact Or.inr ⟨by simp [h], by simpa using h⟩

theorem jsSlice_zero (s : List Char) (a : Nat) : jsSlice s a a = [] := by
  simp [jsSlice]

theorem jsSlice_glue {s : List Char} {a b c : Nat} (hab : a ≤ b) (hbc : b ≤ c) :
    jsSlice s a b ++ jsSlice s b c = jsSlice s a c := by
  unfold jsSlice
  have hc : c - a = (b - a) + (c - b) := by omega
  have hb : a + (b - a) = b := by omega
  rw [hc, List.take_add, List.drop_drop, hb]

theorem jsSlice_all (s : List Char) : jsSlice s 0 s.length = s := by
  simp [jsSlice]

theorem jsSlice_drop (s : List Char) (a : Nat) :
    jsSlice s a s.length = s.drop a := by
  simp [jsSlice]

theorem stripWithWhitespace_pointwise (s : List Char) (a b : Nat) :
    Pointwise (jsSlice s a b) (stripWithWhitespace s a b) :=
  pointwise_map _

theorem pointwise_head_strip {o : Options} (hws : o.whitespace = true)
    {x b : List Char} (h : Pointwise x b) :
    Pointwise x (stripFn o b 0 1 ++ b.drop 1) := by
  cases h with
  | nil =>
      simp only [stripFn, hws, if_true, stripWithWhitespace, jsSlice, List.drop_nil,
        List.take_nil, List.map_nil, List.append_nil]
      exact List.Forall₂.nil
  | @cons ic oc it ot hrel htail =>
      have hb : stripFn o (oc :: ot) 0 1 =
          [if isJsWhitespace oc then oc else ' '] := by
        simp [stripFn, hws, stripWithWhitespace, jsSlice]
      rw [hb]
      refine List.Forall₂.cons ?_ htail
      by_cases hwc : isJsWhitespace oc
      · simpa [hwc] using hrel
      · have hif : (if isJsWhitespace oc then oc else ' ') = ' ' := by simp [hwc]
        rw [hif]
        rcases hrel with h1 | h2
        · exact Or.inr ⟨rfl, by rw [← h1]; simpa using hwc⟩
        · exact Or.inr ⟨rfl, h2.2⟩

/-! ### Whitespace-preserving mode: the scanner only replaces non-whitespace
characters by spaces, position by position -/

theorem stripFn_pointwise {o : Options} (hws : o.whitespace = true)
    (s : List Char) (a b : Nat) : Pointwise (jsSlice s a b) (stripFn o s a b) := by
  rw [stripFn, if_pos hws]
  exact stripWithWhitespace_pointwise s a b

theorem stripFn_self_pointwise {o : Options} (hws : o.whitespace = true)
    (t : List Char) : Pointwise t (stripFn o t 0 t.length) := by
  have h : jsSlice t 0 t.length = t := jsSlice_all t
  have := stripFn_pointwise hws t 0 t.length
  rwa [h] at this

theorem quoteStep_fields (s : List Char) (i : Nat) (st : ScanState) :
    (quoteStep s i st).isInsideComment = st.isInsideComment ∧
    (quoteStep s i st).offset = st.offset ∧
    (quoteStep s i st).buffer = st.buffer ∧
    (quoteStep s i st).result = st.result ∧
    (quoteStep s i st).commaIndex = st.commaIndex := by
  unfold quoteStep
  split_ifs <;> exact ⟨rfl, rfl, rfl, rfl, rfl⟩

theorem jsSlice_take (s : List Char) (a : Nat) : jsSlice s 0 a = s.take a := by
  simp [jsSlice]

/-- Invariant of the scanner state itself in whitespace-preserving mode:
`result` is a pointwise whitespace-preserving image of `s.take k` for some
split point `k ≤ offset`, and `buffer` one of `s[k..offset)`. -/
def WsInvEnd (s : List Char) (st : ScanState) : Prop :=
  ∃ k, k ≤ st.offset ∧ Pointwise (jsSlice s 0 k) st.result ∧
    Pointwise (jsSlice s k st.offset) st.buffer

/-- `WsInvEnd` together with the relation of `offset` to the loop index. -/
def WsInv (s : List Char) (i : Nat) (st : ScanState) : Prop :=
  st.offset ≤ i ∧ WsInvEnd s st

/-- `WsInv` phrased over the (index, state) pair returned by a step. -/
def WsInvP (s : List Char) (p : Nat × ScanState) : Prop :=
  WsInv s p.1 p.2

theorem wsInvP_mk {s : List Char} {i : Nat} {st : ScanState}
    (h1 : st.offset ≤ i) (k : Nat)
    (hk : k ≤ st.offset) (hres : Pointwise (jsSlice s 0 k) st.result)
    (hbuf : Pointwise (jsSlice s k st.offset) st.buffer) : WsInvP s (i, st) :=
  ⟨h1, k, hk, hres, hbuf⟩

theorem stripStepRest_wsInv {o : Options} (hws : o.whitespace = true)
    {s : List Char} {i : Nat} {st1 : ScanState}
    (h : WsInv s i st1) :
    WsInvP s (stripStepRest o s i st1) := by
  obtain ⟨h1, k, hk, hres, hbuf⟩ := h
  have hko : k ≤ i := le_trans hk h1
  have hkeep1 : WsInvP s (i + 1, st1) :=
    wsInvP_mk (le_trans h1 (Nat.le_succ i)) k hk hres hbuf
  have hfl : Pointwise (jsSlice s k i) (st1.buffer ++ jsSlice s st1.offset i) := by
    rw [← jsSlice_glue hk h1]
    exact pointwise_append hbuf (pointwise_refl _)
  have hentryS : WsInvP s (i + 2,
      { st1 with buffer := st1.buffer ++ jsSlice s st1.offset i,
                 offset := i, isInsideComment := some CommentKind.single }) :=
    wsInvP_mk (Nat.le_add_right i 2) k hko hres hfl
  have hentryM : WsInvP s (i + 2,
      { st1 with buffer := st1.buffer ++ jsSlice s st1.offset i,
                 offset := i, isInsideComment := some CommentKind.multi }) :=
    wsInvP_mk (Nat.le_add_right i 2) k hko hres hfl
  have hexitRN : WsInvP s (i + 2,
      { st1 with isInsideComment := none,
                 buffer := st1.buffer ++ stripFn o s st1.offset (i + 1),
                 offset := i + 1 }) := by
    refine wsInvP_mk (Nat.le_succ (i + 1)) k (le_trans hko (Nat.le_succ i)) hres ?_
    dsimp only
    rw [← jsSlice_glue hk (by omega : st1.offset ≤ i + 1)]
    exact pointwise_append hbuf (stripFn_pointwise hws s st1.offset (i + 1))
  have hexitN : WsInvP s (i + 1,
      { st1 with isInsideComment := none,
                 buffer := st1.buffer ++ stripFn o s st1.offset i,
                 offset := i }) := by
    refine wsInvP_mk (Nat.le_succ i) k hko hres ?_
    dsimp only
    rw [← jsSlice_glue hk h1]
    exact pointwise_append hbuf (stripFn_pointwise hws s st1.offset i)
  have hexitM : WsInvP s (i + 2,
      { st1 with isInsideComment := none,
                 buffer := st1.buffer ++ stripFn o s st1.offset (i + 2),
                 offset := i + 2 }) := by
    refine wsInvP_mk (Nat.le_refl (i + 2)) k (le_trans hko (Nat.le_add_right i 2)) hres ?_
    dsimp only
    rw [← jsSlice_glue hk (by omega : st1.offset ≤ i + 2)]
    exact pointwise_append hbuf (stripFn_pointwise hws s st1.offset (i + 2))
  have hcancel : WsInvP s (i + 1,
      { st1 with buffer := st1.buffer ++ jsSlice s st1.offset i,
                 offset := i, commaIndex := none }) :=
    wsInvP_mk (Nat.le_succ i) k hko hres hfl
  have hnil : Pointwise (jsSlice s i i) ([] : List Char) := by
    rw [jsSlice_zero]
    exact List.Forall₂.nil
  have hconfirm : WsInvP s (i + 1,
      { st1 with
        result := st1.result ++
          stripFn o (st1.buffer ++ jsSlice s st1.offset i) 0 1 ++
          (st1.buffer ++ jsSlice s st1.offset i).drop 1,
        buffer := [], offset := i, commaIndex := none }) := by
    refine wsInvP_mk (Nat.le_succ i) i (Nat.le_refl i) ?_ hnil
    dsimp only
    have hhead := pointwise_head_strip hws hfl
    have htot := pointwise_append hres hhead
    rw [jsSlice_glue (Nat.zero_le k) hko] at htot
    simpa [List.append_assoc] using htot
  have hrecord : WsInvP s (i + 1,
      { st1 with
        result := st1.result ++ st1.buffer ++ jsSlice s st1.offset i,
        buffer := [], offset := i, commaIndex := some i }) := by
    refine wsInvP_mk (Nat.le_succ i) i (Nat.le_refl i) ?_ hnil
    dsimp only
    have htot := pointwise_append hres hfl
    rw [jsSlice_glue (Nat.zero_le k) hko] at htot
    simpa [List.append_assoc] using htot
  unfold stripStepRest
  dsimp only
  split_ifs <;>
    first
      | exact hkeep1
      | exact hentryS
      | exact hexitRN
      | exact hexitN
      | exact hentryM
      | exact hexitM
      | (rcases hci : st1.commaIndex with _ | ci <;> dsimp only <;>
          first
            | exact hkeep1
            | exact hconfirm
            | exact hcancel
            | exact hrecord)

theorem stripStep_wsInv {o : Options} (hws : o.whitespace = true)
    {s : List Char} {i : Nat} {st : ScanState} (h : WsInv s i st) :
    WsInvP s (stripStep o s i st) := by
  obtain ⟨hc, ho, hb, hr, hm⟩ := quoteStep_fields s i st
  unfold stripStep
  apply stripStepRest_wsInv hws
  obtain ⟨h1, k, hk, hres, hbuf⟩ := h
  refine ⟨?_, k, ?_, ?_, ?_⟩
  · rw [ho]; exact h1
  · rw [ho]; exact hk
  · rw [hr]; exact hres
  · rw [ho, hb]; exact hbuf

theorem stripLoop_wsInv {o : Options} (hws : o.whitespace = true) (s : List Char) :
    ∀ (fuel i : Nat) (st : ScanState), WsInv s i st →
      WsInvEnd s (stripLoop o s fuel i st) := by
  intro fuel
  induction fuel with
  | zero => intro i st h; exact h.2
  | succ f ih =>
      intro i st h
      by_cases hi : i < s.length
      · simp only [stripLoop, if_pos hi]
        exact ih _ _ (stripStep_wsInv hws h)
      · simp only [stripLoop, if_neg hi]
        exact h.2

theorem initial_wsInv (s : List Char) : WsInv s 0 initialScanState := by
  refine ⟨Nat.le_refl 0, 0, Nat.le_refl 0, ?_, ?_⟩ <;>
    · show Pointwise (jsSlice s 0 0) []
      rw [jsSlice_zero]
      exact List.Forall₂.nil

/-- In whitespace-preserving mode the whole transformation is a pointwise
whitespace-preserving erasure of the input. -/
theorem stripJsonComments_pointwise {o : Options} (hws : o.whitespace = true)
    (s : List Char) : Pointwise s (stripJsonComments s o) := by
  unfold stripJsonComments
  dsimp only
  obtain ⟨k, hk, hres, hbuf⟩ :=
    stripLoop_wsInv hws s s.length 0 initialScanState (initial_wsInv s)
  have htail : Pointwise
      (s.drop (stripLoop o s s.length 0 initialScanState).offset)
      (if (stripLoop o s s.length 0 initialScanState).isInsideComment = none then
        s.drop (stripLoop o s s.length 0 initialScanState).offset
      else
        stripFn o (s.drop (stripLoop o s s.length 0 initialScanState).offset) 0
          (s.drop (stripLoop o s s.length 0 initialScanState).offset).length) := by
    split_ifs
    · exact pointwise_refl _
    · exact stripFn_self_pointwise hws _
  have hs : jsSlice s 0 k ++
      (jsSlice s k (stripLoop o s s.length 0 initialScanState).offset ++
        s.drop (stripLoop o s s.length 0 initialScanState).offset) = s := by
    rw [← List.append_assoc, jsSlice_glue (Nat.zero_le k) hk, jsSlice_take,
      List.take_append_drop]
  have htot := pointwise_append hres (pointwise_append hbuf htail)
  rw [hs] at htot
  simpa [List.append_assoc] using htot

/-- In whitespace-preserving mode the output has the same length as the
input (for both settings of `trailingCommas`). -/
theorem stripJsonComments_length_ws {o : Options} (hws : o.whitespace = true)
    (s : List Char) : (stripJsonComments s o).length = s.length :=
  pointwise_length (stripJsonComments_pointwise hws s)

theorem stripJsonComments_getD_pointwise {o : Options} (hws : o.whitespace = true)
    (s : List Char) (p : Nat) :
    (stripJsonComments s o).getD p ' ' = s.getD p ' ' ∨
      ((stripJsonComments s o).getD p ' ' = ' ' ∧
        isJsWhitespace (s.getD p ' ') = false) := by
  have h := stripJsonComments_pointwise hws s
  have hlen := pointwise_length h
  by_cases hp : p < s.length
  · obtain ⟨hl, hget⟩ := List.forall₂_iff_get.1 h
    have hrel := hget p hp (by omega)
    rw [List.getD_eq_getElem _ _ (by omega), List.getD_eq_getElem _ _ hp]
    exact hrel
  · rw [List.getD_eq_default _ _ (by omega), List.getD_eq_default _ _ (by omega)]
    exact Or.inl rfl

/-- C5: in whitespace-preserving mode (for either setting of trailing-comma
stripping, hence in particular for every input with no trailing-comma
stripping triggers) the output has exactly the length of the input. -/
theorem claim_C5_ws_length_invariant (s : List Char) (tc : Bool) :
    (stripJsonComments s { whitespace := true, trailingCommas := tc }).length =
      s.length :=
  stripJsonComments_length_ws rfl s

/-- C2 counterexample: a tab character inside a removed comment span is a
non-newline character, yet it is preserved as a tab, not replaced by a space:
`strip "//\t\n"` with default options yields `"  \t\n"`, not the `"   \n"`
the claim predicts. -/
theorem claim_C2_counterexample :
    stripJsonComments ("//\t\n".toList)
        { whitespace := true, trailingCommas := false } = ("  \t\n".toList) ∧
      ("  \t\n".toList) ≠ ("   \n".toList) := by
  constructor
  · rfl
  · decide

/-- C2 (amended): in whitespace-preserving mode, a character of a removed span
is replaced by a single space exactly when it is non-whitespace (in the
ECMAScript `\S` sense); whitespace characters — newlines, but also tabs and
carriage returns — are preserved as-is. Pointwise: every output character
either equals the input character at the same position or is a space standing
for a non-whitespace input character. The spec's concrete case 1 holds
verbatim. -/
theorem claim_C2_ws_replacement_amended :
    (∀ (s : List Char) (tc : Bool) (p : Nat),
      (stripJsonComments s { whitespace := true, trailingCommas := tc }).getD p ' ' =
          s.getD p ' ' ∨
        ((stripJsonComments s { whitespace := true, trailingCommas := tc }).getD p ' ' = ' ' ∧
          isJsWhitespace (s.getD p ' ') = false)) ∧
    stripJsonComments ("\x7b\"a\":1 // comment\n\x7d".toList)
        { whitespace := true, trailingCommas := false } =
      ("\x7b\"a\":1           \n\x7d".toList) := by
  constructor
  · intro s tc p
    exact stripJsonComments_getD_pointwise rfl s p
  · rfl

/-! ### Escape parity -/

/-- Specification-level count: the length of the maximal run of consecutive
backslashes immediately preceding position `q`. -/
def backslashRunBefore (s : List Char) (q : Nat) : Nat :=
  ((s.take q).reverse.takeWhile (fun c => c == '\\')).length

theorem consecutiveBackslashes_eq (s : List Char) :
    ∀ q, q ≤ s.length → consecutiveBackslashes s q = backslashRunBefore s q := by
  intro q
  induction q with
  | zero => intro _; rfl
  | succ i ih =>
      intro hq
      have hi : i < s.length := by omega
      have htake : s.take (i + 1) = s.take i ++ [s.getD i ' '] := by
        rw [List.take_succ, List.getElem?_eq_getElem hi,
          List.getD_eq_getElem _ _ hi]
        rfl
      unfold backslashRunBefore
      rw [htake, List.reverse_append, List.reverse_singleton,
        List.singleton_append, List.takeWhile_cons]
      unfold consecutiveBackslashes
      by_cases hc : s.getD i ' ' = '\\'
      · have hc2 : s[i]?.getD ' ' = '\\' := by
          rw [← List.getD_eq_getElem?_getD]
          exact hc
        rw [if_pos hc, if_pos (by simp [hc2])]
        rw [List.length_cons, ih (by omega)]
        rfl
      · have hc2 : ¬s[i]?.getD ' ' = '\\' := by
          rw [← List.getD_eq_getElem?_getD]
          exact hc
        rw [if_neg hc, if_neg (by simp [hc2])]
        rfl

theorem quoteStep_quote {s : List Char} {i : Nat} {st : ScanState}
    (hc : st.isInsideComment = none) (hcur : s.getD i ' ' = '"') :
    (quoteStep s i st).isInsideString =
      if isEscaped s i then st.isInsideString else !st.isInsideString := by
  unfold quoteStep
  rw [if_pos ⟨hc, hcur⟩]
  split_ifs <;> rfl

theorem stripStepRest_isInsideString (o : Options) (s : List Char) (i : Nat)
    (st1 : ScanState) :
    (stripStepRest o s i st1).2.isInsideString = st1.isInsideString := by
  unfold stripStepRest
  dsimp only
  split_ifs <;> first | rfl | (rcases hci : st1.commaIndex with _ | ci <;> rfl)

theorem stripStep_isInsideString_quote {o : Options} {s : List Char} {i : Nat}
    {st : ScanState} (hc : st.isInsideComment = none)
    (hcur : s.getD i ' ' = '"') :
    (stripStep o s i st).2.isInsideString =
      if isEscaped s i then st.isInsideString else !st.isInsideString := by
  unfold stripStep
  rw [stripStepRest_isInsideString, quoteStep_quote hc hcur]

/-- C7: escape parity. (1) `isEscaped` holds exactly when the number of
consecutive backslashes immediately preceding the position is odd. (2) At a
`"` scanned outside any comment, the step toggles `isInsideString` exactly
when that count is even, and leaves it unchanged when the count is odd. -/
theorem claim_C7_escape_parity :
    (∀ (s : List Char) (q : Nat), q ≤ s.length →
      (isEscaped s q = true ↔ backslashRunBefore s q % 2 = 1)) ∧
    (∀ (o : Options) (s : List Char) (i : Nat) (st : ScanState),
      i ≤ s.length → st.isInsideComment = none → s.getD i ' ' = '"' →
      (stripStep o s i st).2.isInsideString =
        if backslashRunBefore s i % 2 = 0 then !st.isInsideString
        else st.isInsideString) := by
  constructor
  · intro s q hq
    rw [isEscaped, consecutiveBackslashes_eq s q hq]
    simp [Nat.beq_eq_true_eq]
  · intro o s i st hi hc hcur
    rw [stripStep_isInsideString_quote hc hcur]
    have hesc : isEscaped s i = true ↔ backslashRunBefore s i % 2 = 1 := by
      rw [isEscaped, consecutiveBackslashes_eq s i hi]
      simp [Nat.beq_eq_true_eq]
    by_cases hpar : backslashRunBefore s i % 2 = 0
    · rw [if_pos hpar, if_neg (by simp [hesc]; omega)]
    · rw [if_neg hpar, if_pos (hesc.2 (by omega))]

/-- Witness for C7 at concrete inputs: the quote in `a\\"` (one preceding
backslash) is escaped, and a `"` at position 0 of `"x` toggles the initial
state into a string. -/
theorem claim_C7_escape_parity_witness :
    (isEscaped ("a\\\"".toList) 2 = true ↔
      backslashRunBefore ("a\\\"".toList) 2 % 2 = 1) ∧
    (stripStep { whitespace := true, trailingCommas := false } ("\"x".toList) 0
        initialScanState).2.isInsideString =
      (if backslashRunBefore ("\"x".toList) 0 % 2 = 0 then
        !initialScanState.isInsideString
      else initialScanState.isInsideString) :=
  ⟨claim_C7_escape_parity.1 _ 2 (by decide),
    claim_C7_escape_parity.2 _ _ 0 _ (by decide) (by decide) (by decide)⟩

/-! ### Error surface -/

/-- C8: `stripJsonComments` with its argument guard: a string argument always
returns an output string (never an error, however malformed the text); any
error implies the argument was not a string; and every non-string argument
yields an error. -/
theorem claim_C8_error_surface :
    (∀ (o : Options) (s : List Char),
      stripJsonCommentsChecked (JsValue.str s) o =
        Except.ok (stripJsonComments s o)) ∧
    (∀ (o : Options) (v : JsValue) (e : List Char),
      stripJsonCommentsChecked v o = Except.error e →
        ∀ s : List Char, v ≠ JsValue.str s) ∧
    (∀ (o : Options) (t : List Char), ∃ e : List Char,
      stripJsonCommentsChecked (JsValue.other t) o = Except.error e) := by
  refine ⟨fun o s => rfl, ?_, fun o t => ⟨_, rfl⟩⟩
  intro o v e hv s hvs
  subst hvs
  simp [stripJsonCommentsChecked] at hv

/-- Witness for C8: a concrete non-string argument (typeof `number`) is
rejected, hence distinct from any string argument. -/
theorem claim_C8_error_surface_witness :
    JsValue.other ("number".toList) ≠ JsValue.str ("abc".toList) :=
  claim_C8_error_surface.2.1 { whitespace := true, trailingCommas := false }
    (JsValue.other ("number".toList)) _ rfl ("abc".toList)

/-! ### Finalisation and whitespace runs -/

/-- The scanner state at the end of the main loop. -/
def finalState (o : Options) (s : List Char) : ScanState :=
  stripLoop o s s.length 0 initialScanState

theorem stripJsonComments_eq_finalState (s : List Char) (o : Options) :
    stripJsonComments s o =
      (finalState o s).result ++ (finalState o s).buffer ++
        (if (finalState o s).isInsideComment = none then
          s.drop (finalState o s).offset
        else
          stripFn o (s.drop (finalState o s).offset) 0
            (s.drop (finalState o s).offset).length) := rfl

/-- If the scan ends outside any comment, the unflushed tail is emitted
verbatim (regardless of any pending comma). -/
theorem stripJsonComments_final_verbatim {s : List Char} {o : Options}
    (h : (finalState o s).isInsideComment = none) :
    stripJsonComments s o =
      (finalState o s).result ++ (finalState o s).buffer ++
        s.drop (finalState o s).offset := by
  rw [stripJsonComments_eq_finalState, if_pos h]

/-- If the scan ends inside a comment, the unflushed tail is passed through
the whitespace policy (never emitted verbatim). -/
theorem stripJsonComments_final_comment {s : List Char} {o : Options}
    (h : ¬(finalState o s).isInsideComment = none) :
    stripJsonComments s o =
      (finalState o s).result ++ (finalState o s).buffer ++
        stripFn o (s.drop (finalState o s).offset) 0
          (s.drop (finalState o s).offset).length := by
  rw [stripJsonComments_eq_finalState, if_neg h]

/-- The four characters the trailing-comma logic treats as whitespace. -/
def isCommaWhitespace (c : Char) : Bool :=
  c == ' ' || c == '\t' || c == '\r' || c == '\n'

theorem stripStep_ws_noop {o : Options} {s : List Char} {i : Nat}
    {st : ScanState} (hc : st.isInsideComment = none)
    (hw : isCommaWhitespace (s.getD i ' ') = true) :
    stripStep o s i st = (i + 1, st) := by
  simp only [isCommaWhitespace, Bool.or_eq_true, beq_iff_eq] at hw
  have hquote : quoteStep s i st = st := by
    unfold quoteStep
    rcases hw with ((h | h) | h) | h <;> rw [if_neg (by rw [h]; simp)]
  unfold stripStep
  rw [hquote]
  unfold stripStepRest
  dsimp only
  by_cases hst : st.isInsideString = true
  · rw [if_pos hst]
  · rcases hw with ((h | h) | h) | h <;>
      rw [if_neg hst, if_neg (by rw [h]; simp), if_neg (by rw [hc]; simp),
        if_neg (by rw [hc]; simp), if_neg (by rw [h]; simp),
        if_neg (by rw [hc]; simp)] <;>
      by_cases htc : o.trailingCommas = true ∧ st.isInsideComment = none <;>
      [skip; rw [if_neg htc]; skip; rw [if_neg htc]; skip; rw [if_neg htc];
        skip; rw [if_neg htc]] <;>
      first
        | rfl
        | (rw [if_pos htc]
           rcases hci : st.commaIndex with _ | ci <;> dsimp only
           · rw [if_neg (by rw [h]; simp)]
           · rw [if_neg (by rw [h]; simp), if_neg (by rw [h]; simp)])

theorem stripLoop_ws_segment {o : Options} {s : List Char} {st : ScanState}
    (hc : st.isInsideComment = none) :
    ∀ (n fuel i : Nat),
      (∀ p, i ≤ p → p < i + n → isCommaWhitespace (s.getD p ' ') = true) →
      i + n ≤ s.length →
      stripLoop o s (fuel + n) i st = stripLoop o s fuel (i + n) st := by
  intro n
  induction n with
  | zero => intro fuel i _ _; rfl
  | succ m ih =>
      intro fuel i hws hlen
      have hi : i < s.length := by omega
      have hstep : stripStep o s i st = (i + 1, st) :=
        stripStep_ws_noop hc (hws i (le_refl i) (by omega))
      have heq : fuel + (m + 1) = (fuel + m) + 1 := by omega
      rw [heq]
      simp only [stripLoop, if_pos hi, hstep]
      have := ih fuel (i + 1)
        (fun p hp1 hp2 => hws p (by omega) (by omega)) (by omega)
      rw [this]
      congr 1
      omega

theorem stripLoop_ws_all {o : Options} {s : List Char} {st : ScanState}
    (hc : st.isInsideComment = none) :
    ∀ (fuel i : Nat),
      (∀ p, i ≤ p → p < s.length → isCommaWhitespace (s.getD p ' ') = true) →
      stripLoop o s fuel i st = st := by
  intro fuel
  induction fuel with
  | zero => intro i _; rfl
  | succ f ih =>
      intro i hws
      by_cases hi : i < s.length
      · have hstep : stripStep o s i st = (i + 1, st) :=
          stripStep_ws_noop hc (hws i (le_refl i) hi)
        simp only [stripLoop, if_pos hi, hstep]
        exact ih (i + 1) (fun p hp1 hp2 => hws p (by omega) hp2)
      · simp only [stripLoop, if_neg hi]

/-- While the scanner is inside a comment, `offset` points at the `//` or
`/*` that opened it. -/
def CommentStartInv (s : List Char) (st : ScanState) : Prop :=
  (st.isInsideComment = some CommentKind.single →
    s.getD st.offset ' ' = '/' ∧ s.getD (st.offset + 1) ' ' = '/') ∧
  (st.isInsideComment = some CommentKind.multi →
    s.getD st.offset ' ' = '/' ∧ s.getD (st.offset + 1) ' ' = '*')

theorem stripStepRest_commentStart {o : Options} {s : List Char} {i : Nat}
    {st1 : ScanState} (h : CommentStartInv s st1) :
    CommentStartInv s (stripStepRest o s i st1).2 := by
  unfold stripStepRest
  dsimp only
  split_ifs <;>
    first
      | exact h
      | ((constructor <;> intro hcm <;> simp_all [List.getD_eq_getElem?_getD]);
          done)
      | (rcases hci : st1.commaIndex with _ | ci <;> dsimp only <;>
          first
            | exact h
            | ((constructor <;> intro hcm <;> simp_all); done))

theorem quoteStep_commentStart {s : List Char} {i : Nat} {st : ScanState}
    (h : CommentStartInv s st) : CommentStartInv s (quoteStep s i st) := by
  obtain ⟨hc, ho, _, _, _⟩ := quoteStep_fields s i st
  constructor <;> intro hcm <;> rw [ho] <;> rw [hc] at hcm
  · exact h.1 hcm
  · exact h.2 hcm

theorem stripStep_commentStart {o : Options} {s : List Char} {i : Nat}
    {st : ScanState} (h : CommentStartInv s st) :
    CommentStartInv s (stripStep o s i st).2 :=
  stripStepRest_commentStart (quoteStep_commentStart h)

theorem stripLoop_commentStart {o : Options} {s : List Char} :
    ∀ (fuel i : Nat) (st : ScanState), CommentStartInv s st →
      CommentStartInv s (stripLoop o s fuel i st) := by
  intro fuel
  induction fuel with
  | zero => intro i st h; exact h
  | succ f ih =>
      intro i st h
      by_cases hi : i < s.length
      · simp only [stripLoop, if_pos hi]
        exact ih _ _ (stripStep_commentStart h)
      · simp only [stripLoop, if_neg hi]
        exact h

theorem finalState_commentStart (o : Options) (s : List Char) :
    CommentStartInv s (finalState o s) :=
  stripLoop_commentStart s.length 0 initialScanState
    ⟨fun h => by simp [initialScanState] at h,
     fun h => by simp [initialScanState] at h⟩

/-- C9: if the input ends while the scanner is still inside a comment, the
tail from the comment's start (`offset` points at the opening `//` or `/*`)
to end-of-input is passed through the whitespace policy, never emitted
verbatim; concretely, `strip "// unterminated"` is fifteen spaces. -/
theorem claim_C9_unterminated_comment_leniency :
    (∀ (s : List Char) (o : Options),
      (finalState o s).isInsideComment ≠ none →
      stripJsonComments s o =
        (finalState o s).result ++ (finalState o s).buffer ++
          stripFn o (s.drop (finalState o s).offset) 0
            (s.drop (finalState o s).offset).length ∧
      s.getD (finalState o s).offset ' ' = '/' ∧
      (s.getD ((finalState o s).offset + 1) ' ' = '/' ∨
        s.getD ((finalState o s).offset + 1) ' ' = '*')) ∧
    stripJsonComments ("// unterminated".toList)
        { whitespace := true, trailingCommas := false } =
      List.replicate 15 ' ' := by
  constructor
  · intro s o h
    refine ⟨stripJsonComments_final_comment h, ?_⟩
    have hinv := finalState_commentStart o s
    rcases hk : (finalState o s).isInsideComment with _ | k
    · exact absurd hk h
    · cases k
      · exact ⟨(hinv.1 hk).1, Or.inl (hinv.1 hk).2⟩
      · exact ⟨(hinv.2 hk).1, Or.inr (hinv.2 hk).2⟩
  · rfl

/-- Witness for C9: on the unterminated block comment `/* x`, the final state
is inside a comment and the whole input is erased to four spaces. -/
theorem claim_C9_unterminated_comment_leniency_witness :
    stripJsonComments ("/* x".toList)
        { whitespace := true, trailingCommas := false } =
      [' ', ' ', ' ', ' '] := by
  have h := claim_C9_unterminated_comment_leniency.1 ("/* x".toList)
    { whitespace := true, trailingCommas := false } (by decide)
  rw [h.1]
  rfl

/-- C10 (implicit): a pending trailing-comma candidate is never stripped at
end of input. (1) From any state outside comments, a whitespace-only
remainder leaves the state — including the pending candidate and its
buffered span — entirely unchanged. (2) When the loop ends outside a
comment, `result`, `buffer` and the tail are emitted verbatim, whatever
`commaIndex` is. (3) Concretely, `strip ", \t "` with trailing-comma
stripping enabled returns the input unchanged. -/
theorem claim_C10_pending_comma_eof :
    (∀ (o : Options) (s : List Char) (fuel i : Nat) (st : ScanState),
      st.isInsideComment = none →
      (∀ p, i ≤ p → p < s.length → isCommaWhitespace (s.getD p ' ') = true) →
      stripLoop o s fuel i st = st) ∧
    (∀ (s : List Char) (o : Options),
      (finalState o s).isInsideComment = none →
      stripJsonComments s o =
        (finalState o s).result ++ (finalState o s).buffer ++
          s.drop (finalState o s).offset) ∧
    stripJsonComments (", \t ".toList)
        { whitespace := true, trailingCommas := true } = (", \t ".toList) := by
  refine ⟨?_, ?_, rfl⟩
  · intro o s fuel i st hc hw
    exact stripLoop_ws_all hc fuel i hw
  · intro s o h
    exact stripJsonComments_final_verbatim h

/-- Witness for C10: a concrete pending-comma state survives a whitespace
tail unchanged, and a concrete input with a pending comma at end of input is
returned verbatim. -/
theorem claim_C10_pending_comma_eof_witness :
    stripLoop { whitespace := true, trailingCommas := true } (", ".toList) 5 1
        ⟨false, none, 0, [], [], some 0⟩ = ⟨false, none, 0, [], [], some 0⟩ ∧
    stripJsonComments (",  ".toList)
        { whitespace := true, trailingCommas := true } = (",  ".toList) := by
  constructor
  · exact claim_C10_pending_comma_eof.1 _ _ 5 1 _ rfl
      (by
        intro p h1 h2
        have hp : p = 1 := by simp at h2; omega
        subst hp
        decide)
  · have h := claim_C10_pending_comma_eof.2.1 (",  ".toList)
      { whitespace := true, trailingCommas := true } (by decide)
    rw [h]
    rfl

/-! ### Trailing-comma branch behaviour -/

theorem stripStep_record {o : Options} {s : List Char} {i : Nat}
    {st : ScanState} (htc : o.trailingCommas = true)
    (hstr : st.isInsideString = false) (hc : st.isInsideComment = none)
    (hci : st.commaIndex = none) (hcur : s.getD i ' ' = ',') :
    stripStep o s i st = (i + 1,
      { st with result := st.result ++ st.buffer ++ jsSlice s st.offset i,
                buffer := [], offset := i, commaIndex := some i }) := by
  have hquote : quoteStep s i st = st := by
    unfold quoteStep
    rw [if_neg (by rw [hcur]; simp)]
  unfold stripStep
  rw [hquote]
  unfold stripStepRest
  dsimp only
  rw [if_neg (by rw [hstr]; simp), if_neg (by rw [hcur]; simp),
    if_neg (by rw [hc]; simp), if_neg (by rw [hc]; simp),
    if_neg (by rw [hcur]; simp), if_neg (by rw [hc]; simp),
    if_pos ⟨htc, hc⟩, hci]
  dsimp only
  rw [if_pos hcur]

theorem stripStep_cancel_comma {o : Options} {s : List Char} {i : Nat}
    {st : ScanState} {c : Nat} (htc : o.trailingCommas = true)
    (hstr : st.isInsideString = false) (hc : st.isInsideComment = none)
    (hci : st.commaIndex = some c) (hcur : s.getD i ' ' = ',') :
    stripStep o s i st = (i + 1,
      { st with buffer := st.buffer ++ jsSlice s st.offset i,
                offset := i, commaIndex := none }) := by
  have hquote : quoteStep s i st = st := by
    unfold quoteStep
    rw [if_neg (by rw [hcur]; simp)]
  unfold stripStep
  rw [hquote]
  unfold stripStepRest
  dsimp only
  rw [if_neg (by rw [hstr]; simp), if_neg (by rw [hcur]; simp),
    if_neg (by rw [hc]; simp), if_neg (by rw [hc]; simp),
    if_neg (by rw [hcur]; simp), if_neg (by rw [hc]; simp),
    if_pos ⟨htc, hc⟩, hci]
  dsimp only
  rw [if_neg (by rw [hcur]; simp), if_pos (by rw [hcur]; simp)]

theorem stripStep_confirm {o : Options} {s : List Char} {i : Nat}
    {st : ScanState} {c : Nat} (htc : o.trailingCommas = true)
    (hstr : st.isInsideString = false) (hc : st.isInsideComment = none)
    (hci : st.commaIndex = some c)
    (hcur : s.getD i ' ' = '\x7d' ∨ s.getD i ' ' = ']') :
    stripStep o s i st = (i + 1,
      { st with
        result := st.result ++
          stripFn o (st.buffer ++ jsSlice s st.offset i) 0 1 ++
          (st.buffer ++ jsSlice s st.offset i).drop 1,
        buffer := [], offset := i, commaIndex := none }) := by
  have hquote : quoteStep s i st = st := by
    unfold quoteStep
    rcases hcur with h | h <;> rw [if_neg (by rw [h]; simp)]
  unfold stripStep
  rw [hquote]
  unfold stripStepRest
  dsimp only
  rcases hcur with h | h <;>
    rw [if_neg (by rw [hstr]; simp), if_neg (by rw [h]; simp),
      if_neg (by rw [hc]; simp), if_neg (by rw [hc]; simp),
      if_neg (by rw [h]; simp), if_neg (by rw [hc]; simp),
      if_pos ⟨htc, hc⟩, hci] <;>
    dsimp only <;>
    rw [if_pos (by rw [h]; simp)]

theorem stripStep_close_nopending {o : Options} {s : List Char} {i : Nat}
    {st : ScanState} (hc : st.isInsideComment = none)
    (hci : st.commaIndex = none)
    (hcur : s.getD i ' ' = '\x7d' ∨ s.getD i ' ' = ']') :
    stripStep o s i st = (i + 1, st) := by
  have hquote : quoteStep s i st = st := by
    unfold quoteStep
    rcases hcur with h | h <;> rw [if_neg (by rw [h]; simp)]
  unfold stripStep
  rw [hquote]
  unfold stripStepRest
  dsimp only
  by_cases hstr : st.isInsideString = true
  · rw [if_pos hstr]
  · rcases hcur with h | h <;>
      rw [if_neg hstr, if_neg (by rw [h]; simp),
        if_neg (by rw [hc]; simp), if_neg (by rw [hc]; simp),
        if_neg (by rw [h]; simp), if_neg (by rw [hc]; simp)] <;>
      by_cases htc : o.trailingCommas = true ∧ st.isInsideComment = none <;>
      [skip; rw [if_neg htc]; skip; rw [if_neg htc]] <;>
      first
        | rfl
        | (rw [if_pos htc, hci]
           dsimp only
           rw [if_neg (by rw [h]; simp)])

theorem stripLoop_succ (o : Options) (s : List Char) (fuel i : Nat)
    (st : ScanState) (hi : i < s.length) :
    stripLoop o s (fuel + 1) i st =
      stripLoop o s fuel (stripStep o s i st).1 (stripStep o s i st).2 := by
  simp only [stripLoop, if_pos hi]

theorem strip_single_trailing_comma (w : List Char)
    (hw : ∀ c ∈ w, isCommaWhitespace c = true) :
    stripJsonComments (',' :: (w ++ [']']))
        { whitespace := true, trailingCommas := true } =
      ' ' :: (w ++ [']']) := by
  have hlen : (',' :: (w ++ [']'])).length = w.length + 2 := by simp
  have hws1 : ∀ p, 1 ≤ p → p < 1 + w.length →
      isCommaWhitespace ((',' :: (w ++ [']'])).getD p ' ') = true := by
    intro p h1 h2
    obtain ⟨q, rfl⟩ : ∃ q, p = q + 1 := ⟨p - 1, by omega⟩
    have hq : q < w.length := by omega
    rw [List.getD_cons_succ, List.getD_append _ _ _ _ hq,
      List.getD_eq_getElem _ _ hq]
    exact hw _ (List.getElem_mem hq)
  have hcl : (',' :: (w ++ [']'])).getD (1 + w.length) ' ' = ']' := by
    rw [Nat.add_comm 1 w.length, List.getD_cons_succ,
      List.getD_append_right _ _ _ _ (Nat.le_refl _), Nat.sub_self]
    rfl
  have hslice : jsSlice (',' :: (w ++ [']'])) 0 (1 + w.length) = ',' :: w := by
    rw [jsSlice_take, Nat.add_comm 1 w.length, List.take_succ_cons,
      List.take_left]
  have h0pre := @stripStep_record { whitespace := true, trailingCommas := true }
    (',' :: (w ++ [']'])) 0 initialScanState rfl rfl rfl rfl rfl
  have h0 : stripStep { whitespace := true, trailingCommas := true }
      (',' :: (w ++ [']'])) 0 initialScanState =
      (1, ⟨false, none, 0, [], [], some 0⟩) := by
    rw [h0pre]
    rfl
  have h2pre := @stripStep_confirm { whitespace := true, trailingCommas := true }
    (',' :: (w ++ [']'])) (1 + w.length) ⟨false, none, 0, [], [], some 0⟩ 0
    rfl rfl rfl rfl (Or.inr hcl)
  have h2 : stripStep { whitespace := true, trailingCommas := true }
      (',' :: (w ++ [']'])) (1 + w.length) ⟨false, none, 0, [], [], some 0⟩ =
      (1 + w.length + 1,
        ⟨false, none, 1 + w.length, [], ' ' :: w, none⟩) := by
    rw [h2pre]
    dsimp only
    rw [hslice]
    rfl
  have hrun : finalState { whitespace := true, trailingCommas := true }
      (',' :: (w ++ [']'])) = ⟨false, none, 1 + w.length, [], ' ' :: w, none⟩ := by
    show stripLoop { whitespace := true, trailingCommas := true }
        (',' :: (w ++ [']'])) (',' :: (w ++ [']'])).length 0 initialScanState = _
    rw [hlen]
    have e1 : w.length + 2 = (w.length + 1) + 1 := rfl
    rw [e1, stripLoop_succ _ _ _ _ _ (by simp), h0]
    dsimp only
    rw [Nat.add_comm w.length 1,
      @stripLoop_ws_segment { whitespace := true, trailingCommas := true }
        (',' :: (w ++ [']'])) ⟨false, none, 0, [], [], some 0⟩ rfl
        w.length 1 1 hws1 (by rw [hlen]; omega),
      stripLoop_succ _ _ _ _ _ (by rw [hlen]; omega), h2]
    rfl
  have hdrop : (',' :: (w ++ [']'])).drop (1 + w.length) = [']'] := by
    rw [Nat.add_comm 1 w.length, List.drop_succ_cons, List.drop_left]
  rw [stripJsonComments_final_verbatim (by rw [hrun]), hrun, hdrop]
  simp

theorem strip_double_comma_kept (w : List Char)
    (hw : ∀ c ∈ w, isCommaWhitespace c = true) :
    stripJsonComments (',' :: ',' :: (w ++ [']']))
        { whitespace := true, trailingCommas := true } =
      ',' :: ',' :: (w ++ [']']) := by
  have hlen : (',' :: ',' :: (w ++ [']'])).length = w.length + 3 := by simp
  have hws2 : ∀ p, 2 ≤ p → p < 2 + w.length →
      isCommaWhitespace ((',' :: ',' :: (w ++ [']'])).getD p ' ') = true := by
    intro p h1 h2
    obtain ⟨q, rfl⟩ : ∃ q, p = q + 1 + 1 := ⟨p - 2, by omega⟩
    have hq : q < w.length := by omega
    rw [List.getD_cons_succ, List.getD_cons_succ, List.getD_append _ _ _ _ hq,
      List.getD_eq_getElem _ _ hq]
    exact hw _ (List.getElem_mem hq)
  have hcl : (',' :: ',' :: (w ++ [']'])).getD (2 + w.length) ' ' = ']' := by
    have e : 2 + w.length = (w.length + 1) + 1 := by omega
    rw [e, List.getD_cons_succ, List.getD_cons_succ,
      List.getD_append_right _ _ _ _ (Nat.le_refl _), Nat.sub_self]
    rfl
  have h0pre := @stripStep_record { whitespace := true, trailingCommas := true }
    (',' :: ',' :: (w ++ [']'])) 0 initialScanState rfl rfl rfl rfl rfl
  have h0 : stripStep { whitespace := true, trailingCommas := true }
      (',' :: ',' :: (w ++ [']'])) 0 initialScanState =
      (1, ⟨false, none, 0, [], [], some 0⟩) := by
    rw [h0pre]
    rfl
  have h1pre := @stripStep_cancel_comma
    { whitespace := true, trailingCommas := true }
    (',' :: ',' :: (w ++ [']'])) 1 ⟨false, none, 0, [], [], some 0⟩ 0
    rfl rfl rfl rfl rfl
  have h1 : stripStep { whitespace := true, trailingCommas := true }
      (',' :: ',' :: (w ++ [']'])) 1 ⟨false, none, 0, [], [], some 0⟩ =
      (2, ⟨false, none, 1, [','], [], none⟩) := by
    rw [h1pre]
    rfl
  have h2pre := @stripStep_close_nopending
    { whitespace := true, trailingCommas := true }
    (',' :: ',' :: (w ++ [']'])) (2 + w.length) ⟨false, none, 1, [','], [], none⟩
    rfl rfl (Or.inr hcl)
  have hrun : finalState { whitespace := true, trailingCommas := true }
      (',' :: ',' :: (w ++ [']'])) = ⟨false, none, 1, [','], [], none⟩ := by
    show stripLoop { whitespace := true, trailingCommas := true }
        (',' :: ',' :: (w ++ [']'])) (',' :: ',' :: (w ++ [']'])).length 0
        initialScanState = _
    rw [hlen]
    have e1 : w.length + 3 = ((w.length + 1) + 1) + 1 := rfl
    rw [e1, stripLoop_succ _ _ _ _ _ (by simp), h0]
    dsimp only
    rw [stripLoop_succ _ _ _ _ _ (by rw [hlen]; omega), h1]
    dsimp only
    rw [Nat.add_comm w.length 1,
      @stripLoop_ws_segment { whitespace := true, trailingCommas := true }
        (',' :: ',' :: (w ++ [']'])) ⟨false, none, 1, [','], [], none⟩ rfl
        w.length 1 2 hws2 (by rw [hlen]; omega),
      stripLoop_succ _ _ _ _ _ (by rw [hlen]; omega)]
    rw [show (2 : Nat) + w.length = 2 + w.length from rfl, h2pre]
    rfl
  rw [stripJsonComments_final_verbatim (by rw [hrun]), hrun]
  rfl

/-- C1 counterexample: with trailing-comma stripping enabled, in `,,]` the
second comma is the last non-whitespace token before `]`, yet the output is
`,,]` unchanged — not `, ]` as the claimed iff-characterisation predicts. -/
theorem claim_C1_counterexample :
    stripJsonComments (",,]".toList)
        { whitespace := true, trailingCommas := true } = (",,]".toList) ∧
      (",,]".toList) ≠ (", ]".toList) :=
  ⟨rfl, by decide⟩

/-- C1 (amended): a comma is removed (replaced by one space in
whitespace-preserving mode) iff it is registered as the pending candidate
and a `}` or `]` is then reached with only whitespace/comments in between.
Registration happens only when no other comma is pending: (1) a comma
scanned with no pending candidate is recorded; (2) a comma scanned while a
candidate is pending cancels the candidate and is itself NOT recorded —
so it survives even if `}`/`]` follows directly; (3) a pending candidate is
confirmed (comma replaced per whitespace policy) exactly at a `}` or `]`.
End-to-end: (4) `,<ws>*]` becomes ` <ws>*]`, while (5) `,,<ws>*]` is kept
unchanged. -/
theorem claim_C1_trailing_comma_characterization :
    (∀ (o : Options) (s : List Char) (i : Nat) (st : ScanState),
      o.trailingCommas = true → st.isInsideString = false →
      st.isInsideComment = none → st.commaIndex = none →
      s.getD i ' ' = ',' →
      stripStep o s i st = (i + 1,
        { st with result := st.result ++ st.buffer ++ jsSlice s st.offset i,
                  buffer := [], offset := i, commaIndex := some i })) ∧
    (∀ (o : Options) (s : List Char) (i c : Nat) (st : ScanState),
      o.trailingCommas = true → st.isInsideString = false →
      st.isInsideComment = none → st.commaIndex = some c →
      s.getD i ' ' = ',' →
      stripStep o s i st = (i + 1,
        { st with buffer := st.buffer ++ jsSlice s st.offset i,
                  offset := i, commaIndex := none })) ∧
    (∀ (o : Options) (s : List Char) (i c : Nat) (st : ScanState),
      o.trailingCommas = true → st.isInsideString = false →
      st.isInsideComment = none → st.commaIndex = some c →
      (s.getD i ' ' = '\x7d' ∨ s.getD i ' ' = ']') →
      stripStep o s i st = (i + 1,
        { st with
          result := st.result ++
            stripFn o (st.buffer ++ jsSlice s st.offset i) 0 1 ++
            (st.buffer ++ jsSlice s st.offset i).drop 1,
          buffer := [], offset := i, commaIndex := none })) ∧
    (∀ w : List Char, (∀ c ∈ w, isCommaWhitespace c = true) →
      stripJsonComments (',' :: (w ++ [']']))
          { whitespace := true, trailingCommas := true } =
        ' ' :: (w ++ [']'])) ∧
    (∀ w : List Char, (∀ c ∈ w, isCommaWhitespace c = true) →
      stripJsonComments (',' :: ',' :: (w ++ [']']))
          { whitespace := true, trailingCommas := true } =
        ',' :: ',' :: (w ++ [']'])) :=
  ⟨fun _ _ _ _ h1 h2 h3 h4 h5 => stripStep_record h1 h2 h3 h4 h5,
   fun _ _ _ _ _ h1 h2 h3 h4 h5 => stripStep_cancel_comma h1 h2 h3 h4 h5,
   fun _ _ _ _ _ h1 h2 h3 h4 h5 => stripStep_confirm h1 h2 h3 h4 h5,
   strip_single_trailing_comma,
   strip_double_comma_kept⟩

/-- Witness for C1 at concrete inputs: recording, cancelling, confirming,
and the two end-to-end shapes. -/
theorem claim_C1_trailing_comma_characterization_witness :
    stripStep { whitespace := true, trailingCommas := true } (",]".toList) 0
        initialScanState = (1, ⟨false, none, 0, [], [], some 0⟩) ∧
    stripStep { whitespace := true, trailingCommas := true } (",,]".toList) 1
        ⟨false, none, 0, [], [], some 0⟩ =
      (2, ⟨false, none, 1, [','], [], none⟩) ∧
    stripStep { whitespace := true, trailingCommas := true } (",]".toList) 1
        ⟨false, none, 0, [], [], some 0⟩ =
      (2, ⟨false, none, 1, [], [' '], none⟩) ∧
    stripJsonComments (',' :: ([' '] ++ [']']))
        { whitespace := true, trailingCommas := true } =
      ' ' :: ([' '] ++ [']']) ∧
    stripJsonComments (',' :: ',' :: (([] : List Char) ++ [']']))
        { whitespace := true, trailingCommas := true } =
      ',' :: ',' :: (([] : List Char) ++ [']']) := by
  refine ⟨?_, ?_, ?_, ?_, ?_⟩
  · rw [claim_C1_trailing_comma_characterization.1
      { whitespace := true, trailingCommas := true } (",]".toList) 0
      initialScanState rfl rfl rfl rfl rfl]
    rfl
  · rw [claim_C1_trailing_comma_characterization.2.1
      { whitespace := true, trailingCommas := true } (",,]".toList) 1 0
      ⟨false, none, 0, [], [], some 0⟩ rfl rfl rfl rfl rfl]
    rfl
  · rw [claim_C1_trailing_comma_characterization.2.2.1
      { whitespace := true, trailingCommas := true } (",]".toList) 1 0
      ⟨false, none, 0, [], [], some 0⟩ rfl rfl rfl rfl (Or.inr rfl)]
    rfl
  · exact claim_C1_trailing_comma_characterization.2.2.2.1 [' '] (by decide)
  · exact claim_C1_trailing_comma_characterization.2.2.2.2 [] (by decide)

/-! ### Single-line comment exits -/

theorem stripStep_line_exit_rn {o : Options} {s : List Char} {i : Nat}
    {st : ScanState} (hstr : st.isInsideString = false)
    (hc : st.isInsideComment = some CommentKind.single)
    (hcur : s.getD i ' ' = '\r') (hnext : s[i + 1]? = some '\n') :
    stripStep o s i st = (i + 2,
      { st with isInsideComment := none,
                buffer := st.buffer ++ stripFn o s st.offset (i + 1),
                offset := i + 1 }) := by
  have hquote : quoteStep s i st = st := by
    unfold quoteStep
    rw [if_neg (by rw [hc]; simp)]
  unfold stripStep
  rw [hquote]
  unfold stripStepRest
  dsimp only
  rw [if_neg (by rw [hstr]; simp), if_neg (by rw [hc]; simp),
    if_pos ⟨hc, hcur, hnext⟩]

theorem stripStep_line_exit_n {o : Options} {s : List Char} {i : Nat}
    {st : ScanState} (hstr : st.isInsideString = false)
    (hc : st.isInsideComment = some CommentKind.single)
    (hcur : s.getD i ' ' = '\n') :
    stripStep o s i st = (i + 1,
      { st with isInsideComment := none,
                buffer := st.buffer ++ stripFn o s st.offset i,
                offset := i }) := by
  have hquote : quoteStep s i st = st := by
    unfold quoteStep
    rw [if_neg (by rw [hc]; simp)]
  unfold stripStep
  rw [hquote]
  unfold stripStepRest
  dsimp only
  rw [if_neg (by rw [hstr]; simp), if_neg (by rw [hc]; simp),
    if_neg (by rw [hcur]; simp), if_pos ⟨hc, hcur⟩]

/-- C3 counterexample: with `whitespace := false`, the input `//\r\n` (a
comment closed by a CRLF) yields `"\n"` — the `\r` is deleted together with
the comment span, so the full `\r\n` terminator is NOT emitted verbatim. -/
theorem claim_C3_counterexample :
    stripJsonComments ("//\r\n".toList)
        { whitespace := false, trailingCommas := false } = ("\n".toList) ∧
      ("\n".toList) ≠ ("\r\n".toList) :=
  ⟨rfl, by decide⟩

/-- C3 (amended): a single-line comment ends at and excludes a bare `\n`;
on `\r\n` the replaced span `[commentStart, position of \n)` additionally
includes the `\r`. Scanning resumes at the `\n`, which is always emitted
verbatim. Hence in whitespace-preserving mode the `\r` survives (the policy
keeps whitespace characters), but with `whitespace := false` the `\r` is
deleted with the span: `strip "a//x\r\nb"` gives `"a   \r\nb"` preserving,
and `"a\nb"` removing. -/
theorem claim_C3_line_comment_terminator :
    (∀ (o : Options) (s : List Char) (i : Nat) (st : ScanState),
      st.isInsideString = false →
      st.isInsideComment = some CommentKind.single →
      s.getD i ' ' = '\r' → s[i + 1]? = some '\n' →
      stripStep o s i st = (i + 2,
        { st with isInsideComment := none,
                  buffer := st.buffer ++ stripFn o s st.offset (i + 1),
                  offset := i + 1 })) ∧
    (∀ (o : Options) (s : List Char) (i : Nat) (st : ScanState),
      st.isInsideString = false →
      st.isInsideComment = some CommentKind.single →
      s.getD i ' ' = '\n' →
      stripStep o s i st = (i + 1,
        { st with isInsideComment := none,
                  buffer := st.buffer ++ stripFn o s st.offset i,
                  offset := i })) ∧
    stripJsonComments ("a//x\r\nb".toList)
        { whitespace := true, trailingCommas := false } =
      ("a   \r\nb".toList) ∧
    stripJsonComments ("a//x\r\nb".toList)
        { whitespace := false, trailingCommas := false } = ("a\nb".toList) :=
  ⟨fun _ _ _ _ h1 h2 h3 h4 => stripStep_line_exit_rn h1 h2 h3 h4,
   fun _ _ _ _ h1 h2 h3 => stripStep_line_exit_n h1 h2 h3,
   rfl, rfl⟩

/-- Witness for C3: the two exit equations applied at concrete comment
states (scanning `//\r\n` at the `\r`, and `//x\n` at the `\n`). -/
theorem claim_C3_line_comment_terminator_witness :
    stripStep { whitespace := true, trailingCommas := false } ("//\r\n".toList)
        2 ⟨false, some CommentKind.single, 0, [], [], none⟩ =
      (4, ⟨false, none, 3, [' ', ' ', '\r'], [], none⟩) ∧
    stripStep { whitespace := false, trailingCommas := false } ("//x\n".toList)
        3 ⟨false, some CommentKind.single, 0, [], [], none⟩ =
      (4, ⟨false, none, 3, [], [], none⟩) := by
  constructor
  · rw [claim_C3_line_comment_terminator.1
      { whitespace := true, trailingCommas := false } ("//\r\n".toList) 2
      ⟨false, some CommentKind.single, 0, [], [], none⟩ rfl rfl rfl rfl]
    rfl
  · rw [claim_C3_line_comment_terminator.2.1
      { whitespace := false, trailingCommas := false } ("//x\n".toList) 3
      ⟨false, some CommentKind.single, 0, [], [], none⟩ rfl rfl rfl]
    rfl

/-! ### String safety -/

theorem stripStepRest_inert {o : Options} {s : List Char} {i : Nat}
    {st1 : ScanState} (hc : st1.isInsideComment = none)
    (hci : st1.commaIndex = none) (h1 : ¬s.getD i ' ' = '/')
    (h2 : ¬s.getD i ' ' = ',') :
    stripStepRest o s i st1 = (i + 1, st1) := by
  unfold stripStepRest
  dsimp only
  by_cases hstr : st1.isInsideString = true
  · rw [if_pos hstr]
  · rw [if_neg hstr, if_neg (fun hcontra => h1 hcontra.2.1),
      if_neg (by rw [hc]; simp), if_neg (by rw [hc]; simp),
      if_neg (fun hcontra => h1 hcontra.2.1), if_neg (by rw [hc]; simp)]
    by_cases htc : o.trailingCommas = true ∧ st1.isInsideComment = none
    · rw [if_pos htc, hci]
      dsimp only
      rw [if_neg h2]
    · rw [if_neg htc]

theorem stripStep_quote_toggle {o : Options} {s : List Char} {i : Nat}
    {st : ScanState} (hc : st.isInsideComment = none)
    (hci : st.commaIndex = none) (hcur : s.getD i ' ' = '"')
    (hesc : isEscaped s i = false) :
    stripStep o s i st =
      (i + 1, { st with isInsideString := !st.isInsideString }) := by
  have hquote : quoteStep s i st =
      { st with isInsideString := !st.isInsideString } := by
    unfold quoteStep
    rw [if_pos ⟨hc, hcur⟩, if_neg (by rw [hesc]; simp)]
  unfold stripStep
  rw [hquote]
  exact stripStepRest_inert hc hci (by rw [hcur]; simp) (by rw [hcur]; simp)

theorem stripStep_inString_noop {o : Options} {s : List Char} {i : Nat}
    {st : ScanState} (hstr : st.isInsideString = true)
    (hq : s.getD i ' ' = '"' → isEscaped s i = true) :
    stripStep o s i st = (i + 1, st) := by
  have hquote : quoteStep s i st = st := by
    unfold quoteStep
    split_ifs with h1 h2
    · rfl
    · exact absurd (hq h1.2) h2
    · rfl
  unfold stripStep
  rw [hquote]
  unfold stripStepRest
  dsimp only
  rw [if_pos hstr]

theorem stripLoop_inString_segment {o : Options} {s : List Char}
    {st : ScanState} (hstr : st.isInsideString = true) :
    ∀ (n fuel i : Nat),
      (∀ p, i ≤ p → p < i + n → s.getD p ' ' = '"' → isEscaped s p = true) →
      i + n ≤ s.length →
      stripLoop o s (fuel + n) i st = stripLoop o s fuel (i + n) st := by
  intro n
  induction n with
  | zero => intro fuel i _ _; rfl
  | succ m ih =>
      intro fuel i hint hlen
      have hi : i < s.length := by omega
      have hstep : stripStep o s i st = (i + 1, st) :=
        stripStep_inString_noop hstr (hint i (le_refl i) (by omega))
      have heq : fuel + (m + 1) = (fuel + m) + 1 := by omega
      rw [heq]
      simp only [stripLoop, if_pos hi, hstep]
      have := ih fuel (i + 1)
        (fun p hp1 hp2 => hint p (by omega) (by omega)) (by omega)
      rw [this]
      congr 1
      omega

theorem isEscaped_zero (s : List Char) : isEscaped s 0 = false := rfl

theorem isEscaped_of_prev_not_backslash {s : List Char} {q : Nat}
    (h : ¬s.getD q ' ' = '\\') : isEscaped s (q + 1) = false := by
  show (consecutiveBackslashes s (q + 1) % 2 == 1) = false
  simp only [consecutiveBackslashes, if_neg h]
  rfl

theorem strip_string_literal_identity (o : Options) (body : List Char)
    (hb : ∀ c ∈ body, ¬c = '"' ∧ ¬c = '\\') :
    stripJsonComments ('"' :: (body ++ ['"'])) o = '"' :: (body ++ ['"']) := by
  have hlen : ('"' :: (body ++ ['"'])).length = body.length + 2 := by simp
  have hmid : ∀ q, q < body.length →
      ('"' :: (body ++ ['"'])).getD (q + 1) ' ' = body.getD q ' ' := by
    intro q hq
    rw [List.getD_cons_succ, List.getD_append _ _ _ _ hq]
  have hmem : ∀ q, q < body.length → body.getD q ' ' ∈ body := by
    intro q hq
    rw [List.getD_eq_getElem _ _ hq]
    exact List.getElem_mem hq
  have h0 : stripStep o ('"' :: (body ++ ['"'])) 0 initialScanState =
      (1, ⟨true, none, 0, [], [], none⟩) := by
    rw [@stripStep_quote_toggle o ('"' :: (body ++ ['"'])) 0 initialScanState
      rfl rfl rfl (isEscaped_zero _)]
    rfl
  have hclosepos : ('"' :: (body ++ ['"'])).getD (1 + body.length) ' ' = '"' := by
    rw [Nat.add_comm 1 body.length, List.getD_cons_succ,
      List.getD_append_right _ _ _ _ (Nat.le_refl _), Nat.sub_self]
    rfl
  have hlast : ¬('"' :: (body ++ ['"'])).getD body.length ' ' = '\\' := by
    cases body with
    | nil => decide
    | cons b bs =>
        rw [List.length_cons, List.getD_cons_succ,
          List.getD_append _ _ _ _ (by simp : bs.length < (b :: bs).length)]
        exact (hb _ (hmem bs.length (by simp))).2
  have hclose : stripStep o ('"' :: (body ++ ['"'])) (1 + body.length)
      ⟨true, none, 0, [], [], none⟩ =
      (1 + body.length + 1, ⟨false, none, 0, [], [], none⟩) := by
    have hesc : isEscaped ('"' :: (body ++ ['"'])) (1 + body.length) = false := by
      rw [Nat.add_comm 1 body.length]
      exact isEscaped_of_prev_not_backslash hlast
    rw [stripStep_quote_toggle rfl rfl hclosepos hesc]
    rfl
  have hrun : finalState o ('"' :: (body ++ ['"'])) = initialScanState := by
    show stripLoop o ('"' :: (body ++ ['"']))
        ('"' :: (body ++ ['"'])).length 0 initialScanState = _
    rw [hlen]
    have e1 : body.length + 2 = (body.length + 1) + 1 := rfl
    rw [e1, stripLoop_succ _ _ _ _ _ (by simp), h0]
    dsimp only
    rw [Nat.add_comm body.length 1,
      @stripLoop_inString_segment o ('"' :: (body ++ ['"']))
        ⟨true, none, 0, [], [], none⟩ rfl body.length 1 1
        (by
          intro p hp1 hp2 hq
          obtain ⟨q, rfl⟩ : ∃ q, p = q + 1 := ⟨p - 1, by omega⟩
          have hqlt : q < body.length := by omega
          rw [hmid q hqlt] at hq
          exact absurd hq (hb _ (hq ▸ hmem q hqlt)).1)
        (by rw [hlen]; omega),
      stripLoop_succ _ _ _ _ _ (by rw [hlen]; omega), hclose]
    rfl
  rw [stripJsonComments_final_verbatim (by rw [hrun]; rfl), hrun]
  rfl

/-- C6: string safety. (1) While `isInsideString` holds, scanning any span
whose quotes are all escaped changes nothing: the whole state (`offset`,
`buffer`, `result`, comment and comma bookkeeping) is untouched, so the
span's characters — including `//`, `/*`, `*/` and commas — are later
flushed verbatim. (2) A complete double-quoted literal whose body contains
no quote and no backslash (e.g. one containing `//` or `/*`) passes through
`stripJsonComments` unchanged under every option setting. (3) The spec's
concrete case: `strip '{"url":"http://x"}'` is unchanged. -/
theorem claim_C6_string_safety :
    (∀ (o : Options) (s : List Char) (st : ScanState),
      st.isInsideString = true →
      ∀ (n fuel i : Nat),
        (∀ p, i ≤ p → p < i + n → s.getD p ' ' = '"' → isEscaped s p = true) →
        i + n ≤ s.length →
        stripLoop o s (fuel + n) i st = stripLoop o s fuel (i + n) st) ∧
    (∀ (o : Options) (body : List Char),
      (∀ c ∈ body, ¬c = '"' ∧ ¬c = '\\') →
      stripJsonComments ('"' :: (body ++ ['"'])) o = '"' :: (body ++ ['"'])) ∧
    stripJsonComments ("\x7b\"url\":\"http://x\"\x7d".toList)
        { whitespace := true, trailingCommas := false } =
      ("\x7b\"url\":\"http://x\"\x7d".toList) :=
  ⟨fun _ _ _ hstr => stripLoop_inString_segment hstr,
   fun o body hb => strip_string_literal_identity o body hb,
   rfl⟩

/-- Witness for C6: scanning the `//` inside `"//"` from an inside-string
state moves the cursor without touching the state, and the literal `"//x"`
is returned unchanged. -/
theorem claim_C6_string_safety_witness :
    stripLoop { whitespace := true, trailingCommas := false } ("\"//\"".toList)
        (1 + 2) 1 ⟨true, none, 0, [], [], none⟩ =
      stripLoop { whitespace := true, trailingCommas := false } ("\"//\"".toList)
        1 3 ⟨true, none, 0, [], [], none⟩ ∧
    stripJsonComments ('"' :: (['/', '/', 'x'] ++ ['"']))
        { whitespace := false, trailingCommas := true } =
      '"' :: (['/', '/', 'x'] ++ ['"']) := by
  constructor
  · exact claim_C6_string_safety.1 { whitespace := true, trailingCommas := false }
      ("\"//\"".toList) ⟨true, none, 0, [], [], none⟩ rfl 2 1 1
      (by
        intro p h1 h2 hq
        exfalso
        interval_cases p <;> simp_all)
      (by decide)
  · exact claim_C6_string_safety.2.1 { whitespace := false, trailingCommas := true }
      ['/', '/', 'x'] (by decide)

/-! ### Idempotence: a rescan that removes nothing is the identity -/

theorem jsSlice_append_drop {s : List Char} {a b : Nat} (h : a ≤ b) :
    jsSlice s a b ++ s.drop b = s.drop a := by
  have e : s.drop b = (s.drop a).drop (b - a) := by
    rw [List.drop_drop]
    congr 1
    omega
  rw [e]
  exact List.take_append_drop _ _

/-- Whether the loop body at this position performs a removal: entering a
comment (whose span will be erased) or confirming a trailing comma. -/
def stepEventRest (o : Options) (s : List Char) (index : Nat)
    (st1 : ScanState) : Bool :=
  let currentCharacter := s.getD index ' '
  let nextCharacter := s[index + 1]?
  if st1.isInsideString = true then false
  else if st1.isInsideComment = none ∧ currentCharacter = '/' ∧
      nextCharacter = some '/' then true
  else if st1.isInsideComment = some CommentKind.single ∧
      currentCharacter = '\r' ∧ nextCharacter = some '\n' then false
  else if st1.isInsideComment = some CommentKind.single ∧
      currentCharacter = '\n' then false
  else if st1.isInsideComment = none ∧ currentCharacter = '/' ∧
      nextCharacter = some '*' then true
  else if st1.isInsideComment = some CommentKind.multi ∧
      currentCharacter = '*' ∧ nextCharacter = some '/' then false
  else if o.trailingCommas = true ∧ st1.isInsideComment = none then
    match st1.commaIndex with
    | some _ =>
      if currentCharacter = '\x7d' ∨ currentCharacter = ']' then true
      else false
    | none => false
  else false

/-- `stepEventRest` evaluated after quote handling, like the loop body. -/
def stepEvent (o : Options) (s : List Char) (index : Nat) (st : ScanState) :
    Bool :=
  stepEventRest o s index (quoteStep s index st)

/-- The scan performs no comment or trailing-comma removal. -/
def cleanLoop (o : Options) (s : List Char) : Nat → Nat → ScanState → Bool
  | 0, _, _ => true
  | fuel + 1, index, st =>
    if index < s.length then
      (!stepEvent o s index st) &&
        cleanLoop o s fuel (stripStep o s index st).1 (stripStep o s index st).2
    else true

/-- The full scan of `s` performs no removal at all. -/
def cleanPass (s : List Char) (o : Options) : Bool :=
  cleanLoop o s s.length 0 initialScanState

/-- State admissible for the identity argument, phrased over the step's
result pair: still outside comments, offset below the index, and the
flushed-so-far plus unflushed-tail concatenation unchanged. -/
def CleanP (s base : List Char) (p : Nat × ScanState) : Prop :=
  p.2.isInsideComment = none ∧ p.2.offset ≤ p.1 ∧
  p.2.result ++ p.2.buffer ++ s.drop p.2.offset = base

theorem cleanP_mk {s base : List Char} {i : Nat} {st : ScanState}
    (h1 : st.isInsideComment = none) (h2 : st.offset ≤ i)
    (h3 : st.result ++ st.buffer ++ s.drop st.offset = base) :
    CleanP s base (i, st) :=
  ⟨h1, h2, h3⟩

theorem stripStepRest_clean {o : Options} {s : List Char} {i : Nat}
    {st1 : ScanState} (hc : st1.isInsideComment = none)
    (hoff : st1.offset ≤ i) (hev : stepEventRest o s i st1 = false) :
    CleanP s (st1.result ++ st1.buffer ++ s.drop st1.offset)
      (stripStepRest o s i st1) := by
  unfold stepEventRest at hev
  unfold stripStepRest
  dsimp only at hev ⊢
  split_ifs at hev ⊢ <;>
    first
      | exact cleanP_mk hc (le_trans hoff (Nat.le_succ i)) rfl
      | exact Bool.noConfusion hev
      | (exfalso; rename_i hpos; rw [hc] at hpos
         exact Option.noConfusion hpos.1)
      | (rcases hci : st1.commaIndex with _ | ci <;> rw [hci] at hev <;>
          dsimp only at hev ⊢ <;>
          first
            | exact Bool.noConfusion hev
            | exact cleanP_mk hc (le_trans hoff (Nat.le_succ i)) rfl
            | exact cleanP_mk hc (Nat.le_succ i)
                (by
                  dsimp only
                  simp only [List.append_nil, List.append_assoc,
                    jsSlice_append_drop hoff]))

theorem stripStep_clean {o : Options} {s : List Char} {i : Nat}
    {st : ScanState} (hc : st.isInsideComment = none)
    (hoff : st.offset ≤ i) (hev : stepEvent o s i st = false) :
    CleanP s (st.result ++ st.buffer ++ s.drop st.offset)
      (stripStep o s i st) := by
  obtain ⟨hc1, ho, hb, hr, _⟩ := quoteStep_fields s i st
  unfold stripStep
  have h := @stripStepRest_clean o s i (quoteStep s i st)
    (by rw [hc1]; exact hc) (by rw [ho]; exact hoff) hev
  rw [hr, hb, ho] at h
  exact h

theorem cleanLoop_fixpoint {o : Options} {s : List Char} :
    ∀ (fuel i : Nat) (st : ScanState),
      st.isInsideComment = none → st.offset ≤ i →
      cleanLoop o s fuel i st = true →
      (stripLoop o s fuel i st).isInsideComment = none ∧
      (stripLoop o s fuel i st).result ++ (stripLoop o s fuel i st).buffer ++
          s.drop (stripLoop o s fuel i st).offset =
        st.result ++ st.buffer ++ s.drop st.offset := by
  intro fuel
  induction fuel with
  | zero => intro i st hc _ _; exact ⟨hc, rfl⟩
  | succ f ih =>
      intro i st hc hoff hclean
      by_cases hi : i < s.length
      · simp only [cleanLoop, if_pos hi, Bool.and_eq_true,
          Bool.not_eq_true'] at hclean
        obtain ⟨hev, hrest⟩ := hclean
        obtain ⟨hc2, hoff2, hjoin⟩ := stripStep_clean hc hoff hev
        simp only [stripLoop, if_pos hi]
        obtain ⟨ha, hb2⟩ :=
          ih (stripStep o s i st).1 (stripStep o s i st).2 hc2 hoff2 hrest
        exact ⟨ha, hb2.trans hjoin⟩
      · simp only [stripLoop, if_neg hi]
        exact ⟨hc, trivial⟩

theorem stripJsonComments_fixpoint_of_cleanPass {y : List Char} {o : Options}
    (h : cleanPass y o = true) : stripJsonComments y o = y := by
  obtain ⟨hcend, hjoin⟩ :=
    cleanLoop_fixpoint y.length 0 initialScanState rfl (Nat.le_refl 0) h
  have h2 : stripJsonComments y o =
      (finalState o y).result ++ (finalState o y).buffer ++
        y.drop (finalState o y).offset :=
    stripJsonComments_final_verbatim hcend
  rw [h2]
  exact hjoin.trans (by simp [initialScanState])

/-- C4 counterexample: `strip` is not idempotent for every options value.
With `whitespace := false`, stripping `\/**/"//"` deletes the block comment,
splicing the backslash onto the quote; rescanning the output `\"//"` parses
the quote as escaped, so the `//` is now outside a string and a second pass
strips it: `strip (strip x) ≠ strip x`. -/
theorem claim_C4_counterexample :
    stripJsonComments
        (stripJsonComments ("\\/**/\"//\"".toList)
          { whitespace := false, trailingCommas := false })
        { whitespace := false, trailingCommas := false } ≠
      stripJsonComments ("\\/**/\"//\"".toList)
        { whitespace := false, trailingCommas := false } := by
  decide

/-- C4 (amended): a second pass changes nothing exactly as far as the spec's
own justification holds — when rescanning the first pass's output triggers
no comment removal and no trailing-comma removal (`cleanPass`), the second
pass is the identity. With `whitespace := false` residual comment markers
can survive the first pass (a deleted comment can splice a backslash onto a
following quote, flipping escape parity), and then a second pass strips
more. -/
theorem claim_C4_idempotence_amended :
    ∀ (x : List Char) (o : Options),
      cleanPass (stripJsonComments x o) o = true →
      stripJsonComments (stripJsonComments x o) o = stripJsonComments x o :=
  fun _ _ h => stripJsonComments_fixpoint_of_cleanPass h

/-- Witness for C4: on a concrete commented object under default options the
rescan is clean and the second pass changes nothing. -/
theorem claim_C4_idempotence_amended_witness :
    stripJsonComments
        (stripJsonComments ("\x7b\"a\":1 // c\n\x7d".toList)
          { whitespace := true, trailingCommas := false })
        { whitespace := true, trailingCommas := false } =
      stripJsonComments ("\x7b\"a\":1 // c\n\x7d".toList)
        { whitespace := true, trailingCommas := false } :=
  claim_C4_idempotence_amended ("\x7b\"a\":1 // c\n\x7d".toList)
    { whitespace := true, trailingCommas := false } (by decide)
